import Mathlib

/-!
Shallow embedding of `openbr/plugins/independent.cpp`.

The file models the four components of the plugin:
* `Downsample` — the static stratified sampling function (spec: StratifiedSampler);
* `DownsampleTrainingTransform` — the wrapper applying `Downsample` before
  delegating training (spec: SampledTrainingWrapper), modelled by `dtProject`
  and `dtTrain`;
* `IndependentTransform` — one cloned sub-transform per matrix channel
  (spec: ColumnParallelEnsemble), modelled by `indTrain`, `indProject`,
  `indStore`, `indLoad`;
* `SingletonTransform` — the reference-counted shared registry
  (spec: SharedResourceRegistry), modelled by `sInit` and `sTrain` acting on
  `SRState`.

Machine `int` values are modelled as `Int` with the explicit constant
`intMax = 2^31 - 1`; the C++ `float fraction` is modelled as an exact rational,
with the comparisons `fraction >= 1` / `fraction < 1` and the float-to-int
truncation written directly on numerator and denominator so that they are
kernel-computable.  The nondeterministic `std::random_shuffle` calls are
modelled as explicit function parameters; theorems that depend on them assume
they are permutations.  `QHash` becomes an association list whose most recent
binding wins, and the sorted keys of a `QMap` become an insertion sort by the
lexicographic order on character codes.
-/

namespace OpenBR

/-- Matrix payloads are opaque to this plugin; a natural number stands for one `cv::Mat`. -/
abbrev Mat := Nat

/-- Metadata record of a template: the parts of `br::File` this plugin reads
(its name, the value of the label field, and the boolean FTE flag marking a
sample as excluded). -/
structure File where
  name : String
  label : String
  fte : Bool
deriving DecidableEq, Repr

/-- One sample: a metadata record plus an ordered list of matrix channels. -/
structure Template where
  file : File
  mats : List Mat
deriving DecidableEq, Repr

abbrev TemplateList := List Template

/-- The C++ constant std::numeric_limits of int, max(). -/
def intMax : Int := 2147483647

/-- Same constant on the `Nat` side, for values known nonnegative (after `abs`). -/
def intMaxNat : Nat := 2147483647

def blankFile : File := ⟨"", "", false⟩

/-- Default-constructed template, the result of `QList::value` out of range. -/
def blankTemplate : Template := ⟨blankFile, []⟩

/-- Model of `QList::mid(0, len)`: a negative requested length yields the whole
list, otherwise the first `len` elements. -/
def qmid (l : List α) (len : Int) : List α :=
  if len < 0 then l else l.take len.toNat

/-- Lexicographic comparison of character-code lists, the order used to model
sorted `QMap` keys. -/
def lexLe : List Nat → List Nat → Bool
  | [], _ => true
  | _ :: _, [] => false
  | a :: as, b :: bs => if a < b then true else if b < a then false else lexLe as bs

/-- String order used for the sorted keys of `QMap QString`. -/
def strLe (a b : String) : Bool := lexLe (a.toList.map Char.toNat) (b.toList.map Char.toNat)

/-- Per-label count of `TemplateList::countValues`: the number of templates
carrying the label, restricted to non-FTE templates when `excludeFailures`. -/
def countValue (ts : TemplateList) (excludeFailures : Bool) (lbl : String) : Nat :=
  (ts.filter fun t => decide (t.file.label = lbl) && (!excludeFailures || !t.file.fte)).length

/-- Key set of the `counts` map built by `countValues`: the distinct labels of
the counted templates, in sorted (QMap) order. -/
def countedLabels (ts : TemplateList) (excludeFailures : Bool) : List String :=
  List.insertionSort (fun a b => strLe a b = true)
    (((ts.filter fun t => !excludeFailures || !t.file.fte).map fun t => t.file.label).dedup)

/-- Labels surviving the removal loop of `Downsample`: when both bounds are
finite, labels whose count is below the per-class bound are removed from the
counts map. -/
def survivingLabels (ts : TemplateList) (classes : Int) (I : Nat) : List String :=
  let excl : Bool := decide (I ≠ intMaxNat)
  let labels := countedLabels ts excl
  if I ≠ intMaxNat ∧ classes ≠ intMax then
    labels.filter fun l => decide (I ≤ countValue ts excl l)
  else labels

/-- Label selection of `Downsample`: when more labels survive than `classes`,
shuffle them and keep the first `classes` (QList::mid semantics). -/
def selLabels (sh1 : List String → List String) (ts : TemplateList)
    (classes : Int) (I : Nat) : List String :=
  let labels := survivingLabels ts classes I
  if classes < (labels.length : Int) then qmid (sh1 labels) classes else labels

/-- Indices `j` with `allLabels[j] == lbl` and the FTE flag unset, as collected
by the inner loop of `Downsample`. -/
def eligIndices (ts : TemplateList) (lbl : String) : List Nat :=
  (List.range ts.length).filter fun j =>
    decide ((ts.getD j blankTemplate).file.label = lbl ∧
            (ts.getD j blankTemplate).file.fte = false)

/-- One iteration of the per-label loop of `Downsample`: shuffle the eligible
indices and take all of them (`atLeast`) or at most `I` of them. -/
def labelChunk (sh2 : List Nat → List Nat) (ts : TemplateList) (I : Nat)
    (atLeast : Bool) (lbl : String) : TemplateList :=
  let indices := eligIndices ts lbl
  let mx := if atLeast then indices.length else min indices.length I
  ((sh2 indices).take mx).map fun j => ts.getD j blankTemplate

/-- The static `Downsample` function of `independent.cpp`.  `sh1`, `sh2`, `sh3`
stand for the three `std::random_shuffle` call sites (label selection,
per-label indices, final fraction cut). -/
def Downsample (sh1 : List String → List String) (sh2 : List Nat → List Nat)
    (sh3 : TemplateList → TemplateList) (ts : TemplateList)
    (classes instances : Int) (fraction : ℚ) : TemplateList :=
  if classes = intMax ∧ instances = intMax ∧ (fraction.den : Int) ≤ fraction.num then ts
  else
    let atLeast : Bool := decide (instances < 0)
    let I := instances.natAbs
    let down := ((selLabels sh1 ts classes I).map (labelChunk sh2 ts I atLeast)).flatten
    if fraction.num < (fraction.den : Int) then
      qmid (sh3 down) (Int.tdiv ((down.length : Int) * fraction.num) (fraction.den : Int))
    else down

/-- The comparison `fraction >= 1` of the C++ source agrees with the
numerator/denominator form used in the embedding. -/
lemma one_le_iff (q : ℚ) : 1 ≤ q ↔ (q.den : Int) ≤ q.num := by
  rw [Rat.le_def]
  simp

/-- The comparison `fraction < 1` of the C++ source agrees with the
numerator/denominator form used in the embedding. -/
lemma lt_one_iff (q : ℚ) : q < 1 ↔ q.num < (q.den : Int) := by
  rw [Rat.lt_def]
  simp

/-- Membership in a `qmid` slice implies membership in the list. -/
lemma mem_qmid {x : α} {l : List α} {k : Int} (h : x ∈ qmid l k) : x ∈ l := by
  unfold qmid at h
  split at h
  · exact h
  · exact List.take_subset _ _ h

/-- The `countP` of a `qmid` slice never exceeds that of the list. -/
lemma countP_qmid_le (p : α → Bool) (l : List α) (k : Int) :
    (qmid l k).countP p ≤ l.countP p := by
  unfold qmid
  split
  · exact le_rfl
  · exact (List.take_sublist _ _).countP_le p

/-- A `qmid` slice of a duplicate-free list is duplicate-free. -/
lemma nodup_qmid {l : List α} (h : l.Nodup) (k : Int) : (qmid l k).Nodup := by
  unfold qmid
  split
  · exact h
  · exact (List.take_sublist _ _).nodup h

/-- Every index collected by `eligIndices` points at a template with the
requested label and a clear FTE flag. -/
lemma mem_eligIndices {ts : TemplateList} {lbl : String} {j : Nat}
    (h : j ∈ eligIndices ts lbl) :
    (ts.getD j blankTemplate).file.label = lbl ∧
      (ts.getD j blankTemplate).file.fte = false := by
  unfold eligIndices at h
  exact of_decide_eq_true (List.mem_filter.1 h).2

/-- Every template produced by `labelChunk` carries the chunk's label and is
eligible, provided the index shuffle is a permutation. -/
lemma mem_labelChunk {sh2 : List Nat → List Nat} (hsh2 : ∀ l, (sh2 l).Perm l)
    {ts : TemplateList} {I : Nat} {aL : Bool} {lbl : String} {t : Template}
    (h : t ∈ labelChunk sh2 ts I aL lbl) :
    t.file.label = lbl ∧ t.file.fte = false := by
  unfold labelChunk at h
  obtain ⟨j, hj, rfl⟩ := List.mem_map.1 h
  exact mem_eligIndices ((hsh2 _).mem_iff.1 (List.take_subset _ _ hj))

/-- In bounded mode a `labelChunk` has at most `I` elements. -/
lemma labelChunk_length_le (sh2 : List Nat → List Nat) (ts : TemplateList)
    (I : Nat) (lbl : String) : (labelChunk sh2 ts I false lbl).length ≤ I := by
  unfold labelChunk
  simp only [Bool.false_eq_true, if_false, List.length_map, List.length_take]
  omega

/-- The sorted label keys of the counts map are duplicate-free. -/
lemma nodup_countedLabels (ts : TemplateList) (ex : Bool) :
    (countedLabels ts ex).Nodup :=
  (List.perm_insertionSort _ _).symm.nodup (List.nodup_dedup _)

/-- The surviving labels are duplicate-free. -/
lemma nodup_survivingLabels (ts : TemplateList) (classes : Int) (I : Nat) :
    (survivingLabels ts classes I).Nodup := by
  unfold survivingLabels
  split
  · exact (nodup_countedLabels _ _).filter _
  · exact nodup_countedLabels _ _

/-- The selected labels are duplicate-free when the label shuffle permutes. -/
lemma nodup_selLabels {sh1 : List String → List String}
    (hsh1 : ∀ l, (sh1 l).Perm l) (ts : TemplateList) (classes : Int) (I : Nat) :
    (selLabels sh1 ts classes I).Nodup := by
  simp only [selLabels]
  split
  · exact nodup_qmid ((hsh1 _).symm.nodup (nodup_survivingLabels ts classes I)) _
  · exact nodup_survivingLabels ts classes I

/-- Every selected label survives the discard step, when the label shuffle
permutes. -/
lemma mem_selLabels {sh1 : List String → List String}
    (hsh1 : ∀ l, (sh1 l).Perm l) {ts : TemplateList} {classes : Int} {I : Nat}
    {lbl : String} (h : lbl ∈ selLabels sh1 ts classes I) :
    lbl ∈ survivingLabels ts classes I := by
  simp only [selLabels] at h
  split at h
  · exact (hsh1 _).mem_iff.1 (mem_qmid h)
  · exact h

/-- Mapping `getD` over the filtered index range recovers the filtered list. -/
lemma filter_range_getD (l : List α) (d : α) (p : α → Bool) :
    (((List.range l.length).filter fun j => p (l.getD j d)).map
        fun j => l.getD j d) = l.filter p := by
  induction l with
  | nil => simp
  | cons a tl ih =>
      have hq0 : p ((a :: tl).getD 0 d) = p a := rfl
      have hcomp :
          ((fun j => p ((a :: tl).getD j d)) ∘ Nat.succ) = fun j => p (tl.getD j d) := rfl
      have hmapc :
          ((fun j => (a :: tl).getD j d) ∘ Nat.succ) = fun j => tl.getD j d := rfl
      cases hpa : p a with
      | true =>
          rw [List.length_cons, List.range_succ_eq_map, List.filter_cons, hq0, hpa,
            if_pos rfl, List.map_cons, List.filter_map, List.map_map, hcomp, hmapc, ih,
            List.filter_cons, hpa, if_pos rfl]
          rfl
      | false =>
          rw [List.length_cons, List.range_succ_eq_map, List.filter_cons, hq0, hpa,
            if_neg (by simp), List.filter_map, List.map_map, hcomp, hmapc, ih,
            List.filter_cons, hpa, if_neg (by simp)]

/-- In at-least mode a `labelChunk` is a permutation of all eligible samples of
its label. -/
lemma labelChunk_atLeast_perm {sh2 : List Nat → List Nat}
    (hsh2 : ∀ l, (sh2 l).Perm l) (ts : TemplateList) (I : Nat) (lbl : String) :
    (labelChunk sh2 ts I true lbl).Perm
      (ts.filter fun t => decide (t.file.label = lbl ∧ t.file.fte = false)) := by
  have hdef : labelChunk sh2 ts I true lbl =
      ((sh2 (eligIndices ts lbl)).take (eligIndices ts lbl).length).map
        (fun j => ts.getD j blankTemplate) := rfl
  have hlen : (eligIndices ts lbl).length = (sh2 (eligIndices ts lbl)).length :=
    ((hsh2 _).length_eq).symm
  rw [hdef, hlen, List.take_length]
  have hperm : ((sh2 (eligIndices ts lbl)).map fun j => ts.getD j blankTemplate).Perm
      ((eligIndices ts lbl).map fun j => ts.getD j blankTemplate) := (hsh2 _).map _
  have heq := filter_range_getD ts blankTemplate
    (fun t => decide (t.file.label = lbl ∧ t.file.fte = false))
  rw [show (eligIndices ts lbl).map (fun j => ts.getD j blankTemplate) =
      ts.filter (fun t => decide (t.file.label = lbl ∧ t.file.fte = false)) from heq] at hperm
  exact hperm

/-- Counting one label across the per-label chunks: the chunk of that label
bounds the total, since distinct chunks carry distinct labels. -/
lemma countP_flatten_chunks {sel : List String} {f : String → TemplateList}
    {lbl : String} {n : Nat} (hnd : sel.Nodup)
    (hlab : ∀ l ∈ sel, ∀ t ∈ f l, t.file.label = l)
    (hlen : (f lbl).length ≤ n) :
    ((sel.map f).flatten).countP (fun t => decide (t.file.label = lbl)) ≤ n := by
  induction sel with
  | nil => simp
  | cons a rest ih =>
      rw [List.map_cons, List.flatten_cons, List.countP_append]
      by_cases hla : a = lbl
      · subst hla
        have hrest :
            ((rest.map f).flatten).countP (fun t => decide (t.file.label = a)) = 0 := by
          rw [List.countP_eq_zero]
          intro t ht
          obtain ⟨l', hl', htl⟩ := List.mem_flatten.1 ht
          obtain ⟨l'', hl'', rfl⟩ := List.mem_map.1 hl'
          have : t.file.label = l'' := hlab l'' (List.mem_cons_of_mem _ hl'') t htl
          have hne : l'' ≠ a := fun he => (List.nodup_cons.1 hnd).1 (he ▸ hl'')
          simp [this, hne]
        rw [hrest]
        have := List.countP_le_length (fun t => decide (t.file.label = a)) (l := f a)
        omega
      · have hzero : (f a).countP (fun t => decide (t.file.label = lbl)) = 0 := by
          rw [List.countP_eq_zero]
          intro t ht
          have : t.file.label = a := hlab a (List.mem_cons_self a rest) t ht
          simp [this, hla]
        rw [hzero]
        have := ih (List.nodup_cons.1 hnd).2
          (fun l hl t ht => hlab l (List.mem_cons_of_mem _ hl) t ht)
        omega

/-- Filtering one selected label out of the per-label chunks yields exactly the
chunk of that label. -/
lemma filter_flatten_chunks {sel : List String} {f : String → TemplateList}
    {lbl : String} (hnd : sel.Nodup) (hmem : lbl ∈ sel)
    (hlab : ∀ l ∈ sel, ∀ t ∈ f l, t.file.label = l) :
    ((sel.map f).flatten).filter (fun t => decide (t.file.label = lbl)) = f lbl := by
  induction sel with
  | nil => cases hmem
  | cons a rest ih =>
      rw [List.map_cons, List.flatten_cons, List.filter_append]
      by_cases hla : a = lbl
      · subst hla
        have hself : (f a).filter (fun t => decide (t.file.label = a)) = f a := by
          rw [List.filter_eq_self]
          intro t ht
          simp [hlab a (List.mem_cons_self a rest) t ht]
        have hrest :
            ((rest.map f).flatten).filter (fun t => decide (t.file.label = a)) = [] := by
          rw [List.filter_eq_nil_iff]
          intro t ht
          obtain ⟨l', hl', htl⟩ := List.mem_flatten.1 ht
          obtain ⟨l'', hl'', rfl⟩ := List.mem_map.1 hl'
          have : t.file.label = l'' := hlab l'' (List.mem_cons_of_mem _ hl'') t htl
          have hne : l'' ≠ a := fun he => (List.nodup_cons.1 hnd).1 (he ▸ hl'')
          simp [this, hne]
        rw [hself, hrest, List.append_nil]
      · have hzero : (f a).filter (fun t => decide (t.file.label = lbl)) = [] := by
          rw [List.filter_eq_nil_iff]
          intro t ht
          simp [hlab a (List.mem_cons_self a rest) t ht, hla]
        have hmem' : lbl ∈ rest := by
          cases List.mem_cons.1 hmem with
          | inl h => exact absurd h.symm hla
          | inr h => exact h
        rw [hzero, ih (List.nodup_cons.1 hnd).2 hmem'
          (fun l hl t ht => hlab l (List.mem_cons_of_mem _ hl) t ht), List.nil_append]

/-- C4: with `classes = intMax`, `instances = intMax` and `fraction ≥ 1` the
sampler takes its identity fast path and returns the input collection
unchanged, identical in content and order. -/
theorem downsample_identity_fast_path (sh1 : List String → List String)
    (sh2 : List Nat → List Nat) (sh3 : TemplateList → TemplateList)
    (ts : TemplateList) (fraction : ℚ) (h : 1 ≤ fraction) :
    Downsample sh1 sh2 sh3 ts intMax intMax fraction = ts := by
  have hd := (one_le_iff fraction).1 h
  simp only [Downsample]
  rw [if_pos ⟨trivial, trivial, hd⟩]

/-- Witness for C4 at a concrete one-element collection and `fraction = 2`. -/
theorem downsample_identity_fast_path_witness :
    Downsample id id id [blankTemplate] intMax intMax 2 = [blankTemplate] :=
  downsample_identity_fast_path id id id [blankTemplate] 2 (by norm_num)

/-- C2 counterexample: with `classes = intMax` (infinite) and `perClassBound = 2`
finite, the label a has eligible count 1 < 2 but its sample still appears in
the output: the discard step of `Downsample` runs only when `classes` is also
finite. -/
theorem downsample_discard_cex :
    countValue [⟨⟨"t","a",false⟩,[0]⟩] true "a" = 1 ∧ (1 : Nat) < 2 ∧
    (⟨⟨"t","a",false⟩,[0]⟩ : Template) ∈
      Downsample id id id [⟨⟨"t","a",false⟩,[0]⟩] intMax 2 1 := by decide

/-- C2 (amended): when the per-class bound AND the class bound are both finite,
every template in the output carries a label whose eligible count reaches the
per-class bound; samples of discarded labels never appear. -/
theorem downsample_discard_requires_both_bounds
    (sh1 : List String → List String) (sh2 : List Nat → List Nat)
    (sh3 : TemplateList → TemplateList)
    (hsh1 : ∀ l, (sh1 l).Perm l) (hsh2 : ∀ l, (sh2 l).Perm l)
    (hsh3 : ∀ l, (sh3 l).Perm l)
    (ts : TemplateList) (classes instances : Int) (fraction : ℚ)
    (hI : instances.natAbs ≠ intMaxNat) (hc : classes ≠ intMax)
    (t : Template) (ht : t ∈ Downsample sh1 sh2 sh3 ts classes instances fraction) :
    instances.natAbs ≤ countValue ts true t.file.label := by
  have hfast : ¬(classes = intMax ∧ instances = intMax ∧
      ((fraction.den : Int) ≤ fraction.num)) := fun hh => hc hh.1
  simp only [Downsample] at ht
  rw [if_neg hfast] at ht
  have hdown : t ∈ ((selLabels sh1 ts classes instances.natAbs).map
      (labelChunk sh2 ts instances.natAbs (decide (instances < 0)))).flatten := by
    by_cases hf : fraction.num < (fraction.den : Int)
    · rw [if_pos hf] at ht
      exact (hsh3 _).mem_iff.1 (mem_qmid ht)
    · rw [if_neg hf] at ht
      exact ht
  obtain ⟨chunk, hchunk, htc⟩ := List.mem_flatten.1 hdown
  obtain ⟨lbl, hlbl, rfl⟩ := List.mem_map.1 hchunk
  have hprops := mem_labelChunk hsh2 htc
  have hsurv := mem_selLabels hsh1 hlbl
  simp only [survivingLabels] at hsurv
  rw [if_pos ⟨hI, hc⟩] at hsurv
  have hcount := of_decide_eq_true (List.mem_filter.1 hsurv).2
  have hexcl : decide (instances.natAbs ≠ intMaxNat) = true := decide_eq_true hI
  rw [hexcl] at hcount
  rw [hprops.1]
  exact hcount

/-- Witness for the amended C2 at a one-element collection, `classes = 5`,
`instances = 1`. -/
theorem downsample_discard_requires_both_bounds_witness :
    (1 : Int).natAbs ≤
      countValue [⟨⟨"t","a",false⟩,[0]⟩] true
        (⟨⟨"t","a",false⟩,[0]⟩ : Template).file.label :=
  downsample_discard_requires_both_bounds id id id
    (fun l => List.Perm.refl l) (fun l => List.Perm.refl l) (fun l => List.Perm.refl l)
    [⟨⟨"t","a",false⟩,[0]⟩] 5 1 1 (by decide) (by decide)
    ⟨⟨"t","a",false⟩,[0]⟩ (by decide)

/-- Exact rational one half, used to exercise the `fraction < 1` branch. -/
def half : ℚ := ⟨1, 2, by decide, Nat.coprime_one_left 2⟩

/-- C5 counterexample: in at-least mode (`instances = -1`) with
`fraction = 1/2`, the label a is selected, the template v is an eligible
sample of a, yet it is missing from the output: the final fraction cut
discards eligible samples of a selected label below its full eligible count. -/
theorem downsample_atLeast_cex :
    (⟨⟨"v","a",false⟩,[2]⟩ : Template).file.label = "a" ∧
    (⟨⟨"v","a",false⟩,[2]⟩ : Template).file.fte = false ∧
    "a" ∈ selLabels id [⟨⟨"u","a",false⟩,[1]⟩, ⟨⟨"v","a",false⟩,[2]⟩]
      intMax ((-1 : Int)).natAbs ∧
    (⟨⟨"v","a",false⟩,[2]⟩ : Template) ∈
      [⟨⟨"u","a",false⟩,[1]⟩, ⟨⟨"v","a",false⟩,[2]⟩] ∧
    (⟨⟨"v","a",false⟩,[2]⟩ : Template) ∉
      Downsample id id id [⟨⟨"u","a",false⟩,[1]⟩, ⟨⟨"v","a",false⟩,[2]⟩]
        intMax (-1) half := by decide

/-- C5 (amended): in bounded mode (`0 ≤ instances`, finite) the output holds at
most `instances` samples of any label; in at-least mode (`instances < 0`), as
long as the final fraction cut is inactive (`fraction ≥ 1`), the output
restricted to a selected label is a permutation of all eligible samples of that
label — none are discarded. -/
theorem downsample_per_label_bound_and_atLeast
    (sh1 : List String → List String) (sh2 : List Nat → List Nat)
    (sh3 : TemplateList → TemplateList)
    (hsh1 : ∀ l, (sh1 l).Perm l) (hsh2 : ∀ l, (sh2 l).Perm l)
    (hsh3 : ∀ l, (sh3 l).Perm l)
    (ts : TemplateList) (classes instances : Int) (fraction : ℚ) (lbl : String) :
    (0 ≤ instances → instances ≠ intMax →
      (Downsample sh1 sh2 sh3 ts classes instances fraction).countP
        (fun t => decide (t.file.label = lbl)) ≤ instances.natAbs) ∧
    (instances < 0 → 1 ≤ fraction →
      lbl ∈ selLabels sh1 ts classes instances.natAbs →
      ((Downsample sh1 sh2 sh3 ts classes instances fraction).filter
          (fun t => decide (t.file.label = lbl))).Perm
        (ts.filter fun t => decide (t.file.label = lbl ∧ t.file.fte = false))) := by
  constructor
  · intro h0 hne
    have hfast : ¬(classes = intMax ∧ instances = intMax ∧
        ((fraction.den : Int) ≤ fraction.num)) := fun hh => hne hh.2.1
    simp only [Downsample]
    rw [if_neg hfast]
    have hal : decide (instances < 0) = false := decide_eq_false (not_lt.2 h0)
    rw [hal]
    have hD : (((selLabels sh1 ts classes instances.natAbs).map
        (labelChunk sh2 ts instances.natAbs false)).flatten).countP
          (fun t => decide (t.file.label = lbl)) ≤ instances.natAbs :=
      countP_flatten_chunks (nodup_selLabels hsh1 ts classes _)
        (fun _ _ t ht => (mem_labelChunk hsh2 ht).1)
        (labelChunk_length_le sh2 ts _ lbl)
    by_cases hf : fraction.num < (fraction.den : Int)
    · rw [if_pos hf]
      refine le_trans (countP_qmid_le _ _ _) ?_
      rw [(hsh3 _).countP_eq]
      exact hD
    · rw [if_neg hf]
      exact hD
  · intro hneg hfrac hsel
    have hfast : ¬(classes = intMax ∧ instances = intMax ∧
        ((fraction.den : Int) ≤ fraction.num)) := by
      intro hh
      rw [hh.2.1] at hneg
      exact absurd hneg (by norm_num [intMax])
    simp only [Downsample]
    rw [if_neg hfast]
    have hal : decide (instances < 0) = true := decide_eq_true hneg
    rw [hal]
    have hf : ¬(fraction.num < (fraction.den : Int)) :=
      not_lt.2 ((one_le_iff fraction).1 hfrac)
    rw [if_neg hf]
    rw [filter_flatten_chunks (nodup_selLabels hsh1 ts classes _) hsel
      (fun _ _ t ht => (mem_labelChunk hsh2 ht).1)]
    exact labelChunk_atLeast_perm hsh2 ts _ lbl

/-- Witness for the amended C5: the bounded conjunct at `instances = 1` on a
two-sample collection, and the at-least conjunct at `instances = -1`,
`fraction = 1`. -/
theorem downsample_per_label_bound_and_atLeast_witness :
    ((Downsample id id id [⟨⟨"u","a",false⟩,[1]⟩, ⟨⟨"v","a",false⟩,[2]⟩]
        5 1 1).countP (fun t => decide (t.file.label = "a")) ≤ (1 : Int).natAbs) ∧
    ((Downsample id id id [⟨⟨"u","a",false⟩,[1]⟩, ⟨⟨"v","a",false⟩,[2]⟩]
        5 (-1) 1).filter (fun t => decide (t.file.label = "a"))).Perm
      ([⟨⟨"u","a",false⟩,[1]⟩, ⟨⟨"v","a",false⟩,[2]⟩].filter
        fun t => decide (t.file.label = "a" ∧ t.file.fte = false)) :=
  ⟨(downsample_per_label_bound_and_atLeast id id id
      (fun l => List.Perm.refl l) (fun l => List.Perm.refl l) (fun l => List.Perm.refl l)
      [⟨⟨"u","a",false⟩,[1]⟩, ⟨⟨"v","a",false⟩,[2]⟩] 5 1 1 "a").1
      (by norm_num) (by decide),
   (downsample_per_label_bound_and_atLeast id id id
      (fun l => List.Perm.refl l) (fun l => List.Perm.refl l) (fun l => List.Perm.refl l)
      [⟨⟨"u","a",false⟩,[1]⟩, ⟨⟨"v","a",false⟩,[2]⟩] 5 (-1) 1 "a").2
      (by norm_num) (by norm_num) (by decide)⟩

/-- Lookup in an association list whose most recent binding is first, the model
of `QHash` access: `none` models a missing key. -/
def hget (m : List (String × α)) (d : String) : Option α :=
  match m with
  | [] => none
  | (k, v) :: rest => if k = d then some v else hget rest d

lemma hget_cons_self {v : α} {m : List (String × α)} (d : String) :
    hget ((d, v) :: m) d = some v := by simp [hget]

/-- State of the static members of `SingletonTransform`: the keys of the
`transforms` map, the `trainingReferenceCounts` map, the `trainingData` map,
and a log of the `transform->train` invocations performed so far (identifier
and argument of each call). -/
structure SRState where
  units : List String
  counts : List (String × Int)
  pending : List (String × TemplateList)
  calls : List (String × TemplateList)
deriving DecidableEq, Repr

/-- Model of `SingletonTransform::init` (acquire): create the entry with
reference count 0 when the identifier is new, then increment its count. -/
def sInit (d : String) (s : SRState) : SRState :=
  let s1 := if d ∈ s.units then s
            else { s with units := d :: s.units, counts := (d, 0) :: s.counts }
  { s1 with counts := (d, (hget s1.counts d).getD 0 + 1) :: s1.counts }

/-- Model of `SingletonTransform::train`: append the contribution to the
pending data, decrement the reference count; when it stays positive return,
otherwise train the shared unit on all pending data (logged in `calls`) and
clear the pending buffer. -/
def sTrain (d : String) (data : TemplateList) (s : SRState) : SRState :=
  let pend := (hget s.pending d).getD [] ++ data
  let c := (hget s.counts d).getD 0 - 1
  if 0 < c then
    { s with pending := (d, pend) :: s.pending, counts := (d, c) :: s.counts }
  else
    { s with pending := (d, []) :: s.pending, counts := (d, c) :: s.counts,
             calls := s.calls ++ [(d, pend)] }

/-- Sequence of `train` calls with per-owner contributions, left to right. -/
def trainAll (d : String) (datas : List TemplateList) (s : SRState) : SRState :=
  datas.foldl (fun s data => sTrain d data s) s

lemma sInit_pending (d : String) (s : SRState) : (sInit d s).pending = s.pending := by
  simp only [sInit]
  split <;> rfl

lemma sInit_calls (d : String) (s : SRState) : (sInit d s).calls = s.calls := by
  simp only [sInit]
  split <;> rfl

lemma sInit_units_self (d : String) (s : SRState) : d ∈ (sInit d s).units := by
  simp only [sInit]
  split
  next h => exact h
  next h => exact List.mem_cons_self d s.units

lemma sInit_counts (d : String) (s : SRState) :
    hget (sInit d s).counts d =
      some ((if d ∈ s.units then (hget s.counts d).getD 0 else 0) + 1) := by
  simp only [sInit]
  split
  next h => simp [hget]
  next h => simp [hget]

/-- After `n + 1` acquisitions of a fresh identifier its reference count is
`n + 1` and the pending data, call log and other entries are untouched. -/
lemma sInit_iterate (d : String) (s : SRState) (h : d ∉ s.units) (n : Nat) :
    hget ((sInit d)^[n + 1] s).counts d = some ((n + 1 : Nat) : Int) ∧
    ((sInit d)^[n + 1] s).pending = s.pending ∧
    ((sInit d)^[n + 1] s).calls = s.calls ∧
    d ∈ ((sInit d)^[n + 1] s).units := by
  induction n with
  | zero =>
      rw [Function.iterate_one]
      refine ⟨?_, sInit_pending d s, sInit_calls d s, sInit_units_self d s⟩
      rw [sInit_counts, if_neg h]
      norm_num
  | succ n ih =>
      obtain ⟨hc, hp, hcal, hu⟩ := ih
      rw [Function.iterate_succ_apply']
      refine ⟨?_, by rw [sInit_pending]; exact hp, by rw [sInit_calls]; exact hcal,
        sInit_units_self d _⟩
      rw [sInit_counts, if_pos hu, hc]
      simp only [Option.getD_some]
      push_cast
      ring_nf

/-- Branch of `sTrain` in which the decremented count stays positive. -/
lemma sTrain_pos (d : String) (data : TemplateList) (s : SRState)
    (h : 0 < (hget s.counts d).getD 0 - 1) :
    sTrain d data s = { s with
      pending := (d, (hget s.pending d).getD [] ++ data) :: s.pending,
      counts := (d, (hget s.counts d).getD 0 - 1) :: s.counts } := by
  simp only [sTrain]
  rw [if_pos h]

/-- Branch of `sTrain` in which the count reaches zero (or below): the shared
unit is trained on all pending data and the buffer is cleared. -/
lemma sTrain_nonpos (d : String) (data : TemplateList) (s : SRState)
    (h : ¬0 < (hget s.counts d).getD 0 - 1) :
    sTrain d data s = { s with
      pending := (d, []) :: s.pending,
      counts := (d, (hget s.counts d).getD 0 - 1) :: s.counts,
      calls := s.calls ++ [(d, (hget s.pending d).getD [] ++ data)] } := by
  simp only [sTrain]
  rw [if_neg h]

/-- While more owners are outstanding (`r ≥ 1` remain after the given calls),
a sequence of `train` calls only accumulates pending data and decrements the
count; the shared unit is never trained. -/
lemma trainAll_no_fire (d : String) (datas : List TemplateList) :
    ∀ (r : Int), 1 ≤ r → ∀ s : SRState,
      hget s.counts d = some ((datas.length : Int) + r) →
      (trainAll d datas s).calls = s.calls ∧
      hget (trainAll d datas s).counts d = some r ∧
      (hget (trainAll d datas s).pending d).getD [] =
        (hget s.pending d).getD [] ++ datas.flatten := by
  induction datas with
  | nil =>
      intro r hr s hc
      refine ⟨rfl, ?_, by simp [trainAll]⟩
      simpa [trainAll] using hc
  | cons data rest ih =>
      intro r hr s hc
      have hgetd : (hget s.counts d).getD 0 = ((data :: rest).length : Int) + r := by
        rw [hc]
        rfl
      have hpos : 0 < (hget s.counts d).getD 0 - 1 := by
        rw [hgetd]
        simp only [List.length_cons]
        push_cast
        omega
      have hstep := sTrain_pos d data s hpos
      have hfold : trainAll d (data :: rest) s = trainAll d rest (sTrain d data s) := rfl
      rw [hfold, hstep]
      have hc' : hget ({ s with
          pending := (d, (hget s.pending d).getD [] ++ data) :: s.pending,
          counts := (d, (hget s.counts d).getD 0 - 1) :: s.counts } : SRState).counts d
            = some ((rest.length : Int) + r) := by
        rw [hget_cons_self, hgetd]
        simp only [List.length_cons]
        push_cast
        ring_nf
      obtain ⟨h1, h2, h3⟩ := ih r hr _ hc'
      refine ⟨h1, h2, ?_⟩
      rw [h3, hget_cons_self]
      simp [List.append_assoc]

/-- C1: starting from a state in which the identifier is fresh, `N ≥ 1`
acquisitions followed by one `train` per owner invoke the shared unit's train
exactly once, only on the `N`-th call, with the concatenation of all `N`
contributions, and leave the pending buffer empty. -/
theorem singleton_trains_once (d : String) (s0 : SRState)
    (datas : List TemplateList) (hN : 1 ≤ datas.length) (hu : d ∉ s0.units)
    (hp : (hget s0.pending d).getD [] = []) (k : Nat) (hk : k < datas.length) :
    (trainAll d datas ((sInit d)^[datas.length] s0)).calls
        = s0.calls ++ [(d, datas.flatten)] ∧
    hget (trainAll d datas ((sInit d)^[datas.length] s0)).pending d = some [] ∧
    (trainAll d (datas.take k) ((sInit d)^[datas.length] s0)).calls = s0.calls := by
  set s1 : SRState := (sInit d)^[datas.length] s0 with hs1
  have hiter := sInit_iterate d s0 hu (datas.length - 1)
  rw [Nat.sub_add_cancel hN] at hiter
  rw [← hs1] at hiter
  obtain ⟨hc1, hp1, hcal1, -⟩ := hiter
  have hne : datas ≠ [] := by
    intro he
    rw [he] at hN
    exact absurd hN (by norm_num)
  have hdecomp : datas.dropLast ++ [datas.getLast hne] = datas :=
    List.dropLast_append_getLast hne
  have hlenfront : datas.dropLast.length = datas.length - 1 := List.length_dropLast datas
  -- the first N - 1 calls never fire
  have hfront := trainAll_no_fire d datas.dropLast 1 le_rfl s1 (by
    rw [hc1]
    congr 1
    rw [hlenfront]
    have : 1 ≤ datas.length := hN
    push_cast [Nat.cast_sub this]
    ring)
  obtain ⟨hf1, hf2, hf3⟩ := hfront
  set s2 : SRState := trainAll d datas.dropLast s1 with hs2
  -- the N-th call fires
  have hzero : ¬0 < (hget s2.counts d).getD 0 - 1 := by
    rw [hf2]
    norm_num
  have hlast := sTrain_nonpos d (datas.getLast hne) s2 hzero
  have hfull : trainAll d datas s1 = sTrain d (datas.getLast hne) s2 := by
    conv_lhs => rw [← hdecomp]
    rw [hs2, trainAll, trainAll, List.foldl_append]
    rfl
  refine ⟨?_, ?_, ?_⟩
  · rw [hfull]
    have hcl : (sTrain d (datas.getLast hne) s2).calls
        = s2.calls ++ [(d, (hget s2.pending d).getD [] ++ datas.getLast hne)] := by
      rw [hlast]
    rw [hcl, hf1, hcal1, hf3, hp1, hp, List.nil_append]
    have hfl : datas.dropLast.flatten ++ datas.getLast hne = datas.flatten := by
      conv_rhs => rw [← hdecomp]
      rw [List.flatten_append]
      simp
    rw [hfl]
  · rw [hfull]
    have hpd : hget (sTrain d (datas.getLast hne) s2).pending d = some [] := by
      rw [hlast]
      exact hget_cons_self d
    exact hpd
  · have hk1 : (1 : Int) ≤ (datas.length : Int) - (k : Int) := by
      omega
    have hpref := trainAll_no_fire d (datas.take k) ((datas.length : Int) - (k : Int))
        hk1 s1 (by
          rw [hc1]
          congr 1
          rw [List.length_take, min_eq_left (le_of_lt hk)]
          ring)
    rw [hpref.1, hcal1]

/-- Witness for C1 at one owner, identifier X, one contribution. -/
theorem singleton_trains_once_witness :
    (trainAll "X" [[blankTemplate]]
        ((sInit "X")^[([[blankTemplate]] : List TemplateList).length]
          ⟨[], [], [], []⟩)).calls
      = (⟨[], [], [], []⟩ : SRState).calls ++
          [("X", ([[blankTemplate]] : List TemplateList).flatten)] ∧
    hget (trainAll "X" [[blankTemplate]]
        ((sInit "X")^[([[blankTemplate]] : List TemplateList).length]
          ⟨[], [], [], []⟩)).pending "X" = some [] ∧
    (trainAll "X" (([[blankTemplate]] : List TemplateList).take 0)
        ((sInit "X")^[([[blankTemplate]] : List TemplateList).length]
          ⟨[], [], [], []⟩)).calls = (⟨[], [], [], []⟩ : SRState).calls :=
  singleton_trains_once "X" ⟨[], [], [], []⟩ [[blankTemplate]]
    (by decide) (by decide) (by decide) 0 (by decide)

/-- C3 counterexample: one acquisition of X followed by two `train` calls.
The code neither rejects nor reports the extra call: the count silently drops
to -1 and the shared unit is silently trained a second time. -/
theorem singleton_underflow_cex :
    hget (sTrain "X" [blankTemplate]
        (sTrain "X" [blankTemplate] (sInit "X" ⟨[], [], [], []⟩))).counts "X"
      = some (-1) ∧
    (sTrain "X" [blankTemplate]
        (sTrain "X" [blankTemplate] (sInit "X" ⟨[], [], [], []⟩))).calls.length
      = 2 := by decide

/-- C3 (amended): when `train` is called with no outstanding reference
(count ≤ 0), the call is silently accepted: the count is decremented below
zero and the shared unit is immediately trained again on the data accumulated
since the last flush. -/
theorem singleton_underflow_silently_retrains (d : String) (data : TemplateList)
    (s : SRState) (h : (hget s.counts d).getD 0 ≤ 0) :
    (sTrain d data s).calls = s.calls ++ [(d, (hget s.pending d).getD [] ++ data)] ∧
    hget (sTrain d data s).counts d = some ((hget s.counts d).getD 0 - 1) := by
  have h0 : ¬0 < (hget s.counts d).getD 0 - 1 := by omega
  rw [sTrain_nonpos d data s h0]
  exact ⟨rfl, by rw [hget_cons_self]⟩

/-- Witness for the amended C3: a `train` call on a state with no outstanding
reference. -/
theorem singleton_underflow_silently_retrains_witness :
    (sTrain "X" [blankTemplate] (⟨[], [], [], []⟩ : SRState)).calls
      = (⟨[], [], [], []⟩ : SRState).calls ++
          [("X", (hget (⟨[], [], [], []⟩ : SRState).pending "X").getD []
            ++ [blankTemplate])] ∧
    hget (sTrain "X" [blankTemplate] (⟨[], [], [], []⟩ : SRState)).counts "X"
      = some ((hget (⟨[], [], [], []⟩ : SRState).counts "X").getD 0 - 1) :=
  singleton_underflow_silently_retrains "X" [blankTemplate] ⟨[], [], [], []⟩
    (by decide)

/-- State of an `IndependentTransform`: the roster of cloned sub-transforms
(each identified by its opaque trainable state) and the `trainable` flag
inherited from the prototype.  `transforms.headD 0` is the `transform` member
itself (the first roster entry, aliased by the clone calls). -/
structure IndState where
  transforms : List Nat
  trainable : Bool
deriving DecidableEq, Repr

/-- One step of the regrouping loop of `IndependentTransform::train`: pad the
per-column collections up to the sample's channel count, then append channel
`i` (with the sample's metadata) to column `i`. -/
def addToColumns (cols : List (List Template)) (t : Template) : List (List Template) :=
  let padded := cols ++ List.replicate (t.mats.length - cols.length) []
  (List.range padded.length).map fun i =>
    if i < t.mats.length then padded.getD i [] ++ [⟨t.file, [t.mats.getD i 0]⟩]
    else padded.getD i []

/-- The `templatesList` built by `IndependentTransform::train`: one collection
per column index. -/
def columns (data : TemplateList) : List (List Template) := data.foldl addToColumns []

/-- Model of `IndependentTransform::train`: no-op when untrainable, otherwise
grow the roster by clones up to the column count and train clone `i` on column
`i`.  The per-column tasks act on disjoint clone states, so the concurrent
fork-join is modelled by the simultaneous update. -/
def indTrain (trainFn : Nat → List Template → Nat) (s : IndState)
    (data : TemplateList) : IndState :=
  if s.trainable = false then s
  else
    let cols := columns data
    let grown := s.transforms ++
      List.replicate (cols.length - s.transforms.length) (s.transforms.headD 0)
    { s with transforms := (List.range grown.length).map fun i =>
        if i < cols.length then trainFn (grown.getD i 0) (cols.getD i []) else grown.getD i 0 }

/-- Model of `IndependentTransform::project`: channel `i` of the source is
projected by clone `i % roster.length`; the per-channel outputs are collected
in order; the metadata written last into `dst` survives.  The modulus by a
zero roster length (C++ undefined behaviour, a fatal error at run time) is
modelled as `none`. -/
def indProject (projFn : Nat → Template → Template) (roster : List Nat)
    (src : Template) : Option Template :=
  if roster.length = 0 then
    if src.mats.length = 0 then some ⟨src.file, []⟩ else none
  else
    let outs := (List.range src.mats.length).map fun i =>
      projFn (roster.getD (i % roster.length) 0) ⟨src.file, [src.mats.getD i 0]⟩
    some ⟨(outs.getLastD ⟨src.file, []⟩).file, (outs.map Template.mats).flatten⟩

/-- Model of `IndependentTransform::store`: the roster length followed by each
clone's serialized state in index order. -/
def indStore (s : IndState) : List Nat := s.transforms.length :: s.transforms

/-- Model of `IndependentTransform::load`: read the count, grow the roster by
clones up to it, then load each of the first `count` entries from the stream. -/
def indLoad (s : IndState) (stream : List Nat) : IndState :=
  let n := stream.headD 0
  let grown := s.transforms ++
    List.replicate (n - s.transforms.length) (s.transforms.headD 0)
  { s with transforms := (List.range grown.length).map fun i =>
      if i < n then stream.getD (i + 1) 0 else grown.getD i 0 }

/-- Public operations of an `IndependentTransform`, for stating invariants over
operation sequences. -/
inductive IndOp where
  | trainOp (data : TemplateList)
  | loadOp (stream : List Nat)
  | projectOp (src : Template)
deriving DecidableEq, Repr

/-- State transition of one operation; `project` is `const` and leaves the
state unchanged. -/
def indStep (trainFn : Nat → List Template → Nat) (s : IndState) : IndOp → IndState
  | .trainOp data => indTrain trainFn s data
  | .loadOp stream => indLoad s stream
  | .projectOp _ => s

/-- Run a sequence of operations left to right. -/
def indRun (trainFn : Nat → List Template → Nat) (s : IndState)
    (ops : List IndOp) : IndState :=
  ops.foldl (indStep trainFn) s

lemma length_addToColumns (cols : List (List Template)) (t : Template) :
    (addToColumns cols t).length = max cols.length t.mats.length := by
  simp only [addToColumns, List.length_map, List.length_range, List.length_append,
    List.length_replicate]
  omega

lemma length_foldl_columns_mono (data : TemplateList) :
    ∀ acc : List (List Template), acc.length ≤ (data.foldl addToColumns acc).length := by
  induction data with
  | nil => intro acc; exact le_rfl
  | cons t rest ih =>
      intro acc
      rw [List.foldl_cons]
      refine le_trans ?_ (ih (addToColumns acc t))
      rw [length_addToColumns]
      omega

lemma length_columns_ge (data : TemplateList) (t : Template) (ht : t ∈ data) :
    t.mats.length ≤ (columns data).length := by
  suffices h : ∀ acc : List (List Template),
      t.mats.length ≤ (data.foldl addToColumns acc).length from h []
  induction data with
  | nil => cases ht
  | cons u rest ih =>
      intro acc
      rw [List.foldl_cons]
      rcases List.mem_cons.1 ht with heq | hmem
      · subst heq
        refine le_trans ?_ (length_foldl_columns_mono rest (addToColumns acc t))
        rw [length_addToColumns]
        omega
      · exact ih hmem (addToColumns acc u)

lemma indTrain_trainable (tf : Nat → List Template → Nat) (s : IndState)
    (data : TemplateList) : (indTrain tf s data).trainable = s.trainable := by
  simp only [indTrain]
  split <;> rfl

lemma indTrain_length_ge (tf : Nat → List Template → Nat) (s : IndState)
    (data : TemplateList) :
    s.transforms.length ≤ (indTrain tf s data).transforms.length := by
  simp only [indTrain]
  split
  · exact le_rfl
  · simp only [List.length_map, List.length_range, List.length_append,
      List.length_replicate]
    omega

lemma indTrain_length_batch (tf : Nat → List Template → Nat) (s : IndState)
    (data : TemplateList) (htr : s.trainable = true) (t : Template) (ht : t ∈ data) :
    t.mats.length ≤ (indTrain tf s data).transforms.length := by
  have hcols := length_columns_ge data t ht
  simp only [indTrain]
  rw [if_neg (by simp [htr])]
  simp only [List.length_map, List.length_range, List.length_append,
    List.length_replicate]
  omega

lemma indLoad_length_ge (s : IndState) (stream : List Nat) :
    s.transforms.length ≤ (indLoad s stream).transforms.length := by
  simp only [indLoad, List.length_map, List.length_range, List.length_append,
    List.length_replicate]
  omega

lemma indStep_trainable (tf : Nat → List Template → Nat) (s : IndState) (op : IndOp) :
    (indStep tf s op).trainable = s.trainable := by
  cases op with
  | trainOp data => exact indTrain_trainable tf s data
  | loadOp stream => rfl
  | projectOp src => rfl

lemma indStep_length_ge (tf : Nat → List Template → Nat) (s : IndState) (op : IndOp) :
    s.transforms.length ≤ (indStep tf s op).transforms.length := by
  cases op with
  | trainOp data => exact indTrain_length_ge tf s data
  | loadOp stream => exact indLoad_length_ge s stream
  | projectOp src => exact le_rfl

lemma indRun_length_mono (tf : Nat → List Template → Nat) (ops : List IndOp) :
    ∀ s : IndState, s.transforms.length ≤ (indRun tf s ops).transforms.length := by
  induction ops with
  | nil => intro s; exact le_rfl
  | cons op rest ih =>
      intro s
      exact le_trans (indStep_length_ge tf s op) (ih (indStep tf s op))

lemma indRun_append (tf : Nat → List Template → Nat) (s : IndState)
    (pre post : List IndOp) :
    indRun tf s (pre ++ post) = indRun tf (indRun tf s pre) post := by
  simp only [indRun, List.foldl_append]

lemma indRun_batch_bound (tf : Nat → List Template → Nat) (pre : List IndOp) :
    ∀ s0 : IndState, s0.trainable = true →
      ∀ data : TemplateList, IndOp.trainOp data ∈ pre → ∀ t ∈ data,
        t.mats.length ≤ (indRun tf s0 pre).transforms.length := by
  induction pre with
  | nil => intro s0 _ data hdata; cases hdata
  | cons op rest ih =>
      intro s0 htr data hdata t ht
      have hstep : indRun tf s0 (op :: rest) = indRun tf (indStep tf s0 op) rest := rfl
      rcases List.mem_cons.1 hdata with heq | hmem
      · subst heq
        rw [hstep]
        refine le_trans ?_ (indRun_length_mono tf rest _)
        exact indTrain_length_batch tf s0 data htr t ht
      · rw [hstep]
        refine ih (indStep tf s0 op) ?_ data hmem t ht
        rw [indStep_trainable]
        exact htr

/-- C7: over any sequence of train, load and project operations on a trainable
ensemble, the roster length never decreases, and after the operations of `pre`
the roster is at least as long as the channel count of any sample of any
training batch occurring in `pre`. -/
theorem independent_roster_invariant (tf : Nat → List Template → Nat)
    (s0 : IndState) (pre post : List IndOp) (htr : s0.trainable = true)
    (data : TemplateList) (hdata : IndOp.trainOp data ∈ pre)
    (t : Template) (ht : t ∈ data) :
    (indRun tf s0 pre).transforms.length ≤
        (indRun tf s0 (pre ++ post)).transforms.length ∧
    t.mats.length ≤ (indRun tf s0 pre).transforms.length := by
  constructor
  · rw [indRun_append]
    exact indRun_length_mono tf post (indRun tf s0 pre)
  · exact indRun_batch_bound tf pre s0 htr data hdata t ht

/-- Witness for C7: a two-channel training batch followed by a load of a
one-clone stream; the roster holds at least two clones after `pre`. -/
theorem independent_roster_invariant_witness :
    (indRun (fun st _ => st + 1) ⟨[0], true⟩
        [IndOp.trainOp [⟨blankFile, [1, 2]⟩]]).transforms.length ≤
      (indRun (fun st _ => st + 1) ⟨[0], true⟩
        ([IndOp.trainOp [⟨blankFile, [1, 2]⟩]] ++ [IndOp.loadOp [1, 9]])).transforms.length ∧
    (⟨blankFile, [1, 2]⟩ : Template).mats.length ≤
      (indRun (fun st _ => st + 1) ⟨[0], true⟩
        [IndOp.trainOp [⟨blankFile, [1, 2]⟩]]).transforms.length :=
  independent_roster_invariant (fun st _ => st + 1) ⟨[0], true⟩
    [IndOp.trainOp [⟨blankFile, [1, 2]⟩]] [IndOp.loadOp [1, 9]] rfl
    [⟨blankFile, [1, 2]⟩] (by decide) ⟨blankFile, [1, 2]⟩ (by decide)

lemma flatten_map_singleton (l : List α) (f : α → β) :
    ((l.map fun x => [f x]).flatten) = l.map f := by
  induction l with
  | nil => rfl
  | cons a tl ih => simp [ih]

lemma getLastD_file {fl : File} :
    ∀ (l : List Template) (d : Template), d.file = fl → (∀ x ∈ l, x.file = fl) →
      (l.getLastD d).file = fl
  | [], _, hd, _ => hd
  | a :: tl, d, _, h => by
      rw [List.getLastD_cons]
      exact getLastD_file tl a (h a (List.mem_cons_self a tl))
        (fun x hx => h x (List.mem_cons_of_mem _ hx))

/-- C6: when the roster is non-empty and each clone projects a single-channel
sample to a single-channel sample with the same metadata, `project` sends input
channel `i` through clone `i % rosterLength`, the output channels appear in
input order, and the input's metadata record is carried over. -/
theorem independent_project_channels (projFn : Nat → Template → Template)
    (g : Nat → Mat → Mat)
    (hproj : ∀ st fl m, projFn st ⟨fl, [m]⟩ = ⟨fl, [g st m]⟩)
    (roster : List Nat) (hro : roster ≠ []) (src : Template) :
    indProject projFn roster src =
      some ⟨src.file, (List.range src.mats.length).map fun i =>
        g (roster.getD (i % roster.length) 0) (src.mats.getD i 0)⟩ := by
  have hl : ¬roster.length = 0 := by
    intro h
    exact hro (List.length_eq_zero.1 h)
  simp only [indProject]
  rw [if_neg hl]
  have houts : ((List.range src.mats.length).map fun i =>
        projFn (roster.getD (i % roster.length) 0) ⟨src.file, [src.mats.getD i 0]⟩)
      = (List.range src.mats.length).map fun i =>
        (⟨src.file, [g (roster.getD (i % roster.length) 0) (src.mats.getD i 0)]⟩ :
          Template) :=
    List.map_congr_left fun i _ => hproj _ _ _
  rw [houts]
  congr 1
  refine Template.mk.injEq .. ▸ ?_
  constructor
  · exact getLastD_file _ _ rfl (by
      intro x hx
      obtain ⟨i, _, rfl⟩ := List.mem_map.1 hx
      rfl)
  · rw [List.map_map]
    have hmm : (Template.mats ∘ fun i =>
        (⟨src.file, [g (roster.getD (i % roster.length) 0) (src.mats.getD i 0)]⟩ :
          Template))
        = fun i => [g (roster.getD (i % roster.length) 0) (src.mats.getD i 0)] := rfl
    rw [hmm]
    exact flatten_map_singleton _ _

/-- Witness for C6: a two-clone roster, three channels, additive clones. -/
theorem independent_project_channels_witness :
    indProject (fun st t => ⟨t.file, [st + t.mats.headD 0]⟩) [5, 7]
        ⟨⟨"n", "l", false⟩, [10, 20, 30]⟩ =
      some ⟨⟨"n", "l", false⟩,
        (List.range ((⟨⟨"n", "l", false⟩, [10, 20, 30]⟩ : Template)).mats.length).map
          fun i => (fun st m => st + m)
            (([5, 7] : List Nat).getD (i % ([5, 7] : List Nat).length) 0)
            ((⟨⟨"n", "l", false⟩, [10, 20, 30]⟩ : Template).mats.getD i 0)⟩ :=
  independent_project_channels (fun st t => ⟨t.file, [st + t.mats.headD 0]⟩)
    (fun st m => st + m) (fun _ _ _ => rfl) [5, 7] (by decide)
    ⟨⟨"n", "l", false⟩, [10, 20, 30]⟩

lemma map_getD_range (l : List α) (d : α) :
    (List.range l.length).map (fun i => l.getD i d) = l := by
  induction l with
  | nil => rfl
  | cons a tl ih =>
      rw [List.length_cons, List.range_succ_eq_map, List.map_cons, List.map_map]
      have hc : ((fun i => (a :: tl).getD i d) ∘ Nat.succ) = fun i => tl.getD i d := rfl
      rw [hc, ih]
      rfl

/-- C8: serializing a trained ensemble (count then clone states in order) and
deserializing into a fresh ensemble with the same prototype (roster of length
one after init) reproduces a roster of equal content and length, so `project`
behaves identically on it for every input. -/
theorem independent_store_load_roundtrip (s fresh : IndState)
    (pf : Nat → Template → Template) (src : Template)
    (hf : fresh.transforms.length = 1) (hn : 1 ≤ s.transforms.length) :
    (indLoad fresh (indStore s)).transforms = s.transforms ∧
    (indLoad fresh (indStore s)).transforms.length = s.transforms.length ∧
    indProject pf (indLoad fresh (indStore s)).transforms src
      = indProject pf s.transforms src := by
  have hn' : (indStore s).headD 0 = s.transforms.length := rfl
  have htr : (indLoad fresh (indStore s)).transforms = s.transforms := by
    simp only [indLoad]
    have hglen : (fresh.transforms ++
        List.replicate ((indStore s).headD 0 - fresh.transforms.length)
          (fresh.transforms.headD 0)).length = s.transforms.length := by
      rw [List.length_append, List.length_replicate, hn', hf]
      omega
    rw [hglen]
    have hfun : ∀ i ∈ List.range s.transforms.length,
        (if i < (indStore s).headD 0 then (indStore s).getD (i + 1) 0
         else (fresh.transforms ++
          List.replicate ((indStore s).headD 0 - fresh.transforms.length)
            (fresh.transforms.headD 0)).getD i 0) = s.transforms.getD i 0 := by
      intro i hi
      rw [hn', if_pos (List.mem_range.1 hi)]
      exact List.getD_cons_succ
    rw [List.map_congr_left hfun, map_getD_range]
  exact ⟨htr, by rw [htr], by rw [htr]⟩

/-- Witness for C8 at a concrete three-clone ensemble. -/
theorem independent_store_load_roundtrip_witness :
    (indLoad ⟨[0], true⟩ (indStore ⟨[4, 5, 6], true⟩)).transforms
        = (⟨[4, 5, 6], true⟩ : IndState).transforms ∧
    (indLoad ⟨[0], true⟩ (indStore ⟨[4, 5, 6], true⟩)).transforms.length
        = (⟨[4, 5, 6], true⟩ : IndState).transforms.length ∧
    indProject (fun st t => ⟨t.file, [st + t.mats.headD 0]⟩)
        (indLoad ⟨[0], true⟩ (indStore ⟨[4, 5, 6], true⟩)).transforms
        ⟨blankFile, [1, 2]⟩
      = indProject (fun st t => ⟨t.file, [st + t.mats.headD 0]⟩)
        (⟨[4, 5, 6], true⟩ : IndState).transforms ⟨blankFile, [1, 2]⟩ :=
  independent_store_load_roundtrip ⟨[4, 5, 6], true⟩ ⟨[0], true⟩
    (fun st t => ⟨t.file, [st + t.mats.headD 0]⟩) ⟨blankFile, [1, 2]⟩
    (by decide) (by decide)

/-- C9 counterexample: with an empty roster, `project` on a zero-channel
sample is NOT rejected — it silently succeeds with an empty output (the
modulus loop never runs), while a one-channel sample does hit the error. -/
theorem independent_empty_roster_cex :
    indProject (fun _ t => t) [] ⟨⟨"n", "lab", false⟩, []⟩
        = some ⟨⟨"n", "lab", false⟩, []⟩ ∧
    indProject (fun _ t => t) [] ⟨⟨"n", "lab", false⟩, [0]⟩ = none := by decide

/-- C9 (amended): projecting a sample with at least one channel on an empty
roster reaches the fatal modulus-by-zero, modelled as the error result `none`
(never a silent pass-through); and under the precondition `rosterLength ≥ 1`
every channel modulus `i % rosterLength` is taken by a nonzero divisor, with
result below `rosterLength`. -/
theorem independent_empty_roster_rejected (pf : Nat → Template → Template)
    (roster : List Nat) (src : Template) (h1 : roster = []) (h2 : src.mats ≠ [])
    (roster2 : List Nat) (i : Nat) (h3 : 1 ≤ roster2.length) :
    indProject pf roster src = none ∧ i % roster2.length < roster2.length := by
  constructor
  · subst h1
    have hred : indProject pf [] src =
        if src.mats.length = 0 then some ⟨src.file, []⟩ else none := rfl
    rw [hred, if_neg (by
      intro h
      exact h2 (List.length_eq_zero.1 h))]
  · exact Nat.mod_lt i (by omega)

/-- Witness for the amended C9: a one-channel sample on the empty roster, and
a two-entry roster for the modulus bound. -/
theorem independent_empty_roster_rejected_witness :
    indProject (fun _ t => t) [] ⟨⟨"n", "lab", false⟩, [0]⟩ = none ∧
    5 % ([3, 4] : List Nat).length < ([3, 4] : List Nat).length :=
  independent_empty_roster_rejected (fun _ t => t) [] ⟨⟨"n", "lab", false⟩, [0]⟩
    rfl (by decide) [3, 4] 5 (by decide)

/-- Model of `DownsampleTrainingTransform::project`: an unconditional delegate
to the inner transform; a missing inner transform is the C++ null dereference,
modelled as the error result `none`. -/
def dtProject (pf : Nat → Template → Template) (inner : Option Nat)
    (src : Template) : Option Template :=
  match inner with
  | none => none
  | some st => some (pf st src)

/-- Model of `DownsampleTrainingTransform::train`: guarded no-op when the inner
transform is missing or untrainable, otherwise train it on the downsampled
collection.  The result is the new inner state. -/
def dtTrain (sh1 : List String → List String) (sh2 : List Nat → List Nat)
    (sh3 : TemplateList → TemplateList) (tf : Nat → TemplateList → Nat)
    (trainableF : Nat → Bool) (inner : Option Nat) (classes instances : Int)
    (fraction : ℚ) (data : TemplateList) : Option Nat :=
  match inner with
  | none => none
  | some st =>
      if trainableF st = false then some st
      else some (tf st (Downsample sh1 sh2 sh3 data classes instances fraction))

/-- C10: with an absent inner transform, `train` is a guarded no-op (the state
stays absent and nothing is trained) while `project` unconditionally
dereferences the inner transform and reaches the error branch — never a
pass-through of the input. -/
theorem dt_null_inner (pf : Nat → Template → Template) (src : Template)
    (sh1 : List String → List String) (sh2 : List Nat → List Nat)
    (sh3 : TemplateList → TemplateList) (tf : Nat → TemplateList → Nat)
    (trainableF : Nat → Bool) (classes instances : Int) (fraction : ℚ)
    (data : TemplateList) :
    dtProject pf none src = none ∧
    dtProject pf none src ≠ some src ∧
    dtTrain sh1 sh2 sh3 tf trainableF none classes instances fraction data = none :=
  ⟨rfl, fun h => Option.noConfusion h, rfl⟩

end OpenBR
